import Mathlib

/-
  Verification of the Minesweeper knowledge-based agent
  (src/minesweeper/minesweeper.py) against its specification.

  The Python data model is embedded shallowly:
  * a board cell is a pair of integers (Python tuples of ints);
  * `Sentence` carries a finite set of cells and an integer count;
  * `MinesweeperAI` carries the grid dimensions, the three certainty
    sets and the knowledge base (a Python list, kept as a `List`).

  Python sets are value-comparable unordered collections, modelled as
  `Finset`.  Loops over sets whose effect is order-independent (the
  marking loops of `add_knowledge`) are modelled by their set-level
  effect; bridging lemmas (`foldl_mark_safe_toFinset`,
  `foldl_mark_mine_toFinset`) prove that folding the per-cell source
  operations over any enumeration of the set yields the same result.
-/

namespace Minesweeper

/-- A board cell: Python `(row, col)` tuple of ints. -/
abbrev Cell : Type := Int × Int

/-- `Sentence(cells, count)` from the source: a set of board cells and a
count of how many of them are mines.  Python `__eq__` compares both
fields, which is definitional equality of this structure. -/
structure Sentence where
  cells : Finset Cell
  count : Int
deriving DecidableEq

namespace Sentence

/-- `Sentence.known_mines`: returns the full cell set if
`count == len(cells)`, else the empty set. -/
def known_mines (s : Sentence) : Finset Cell :=
  if s.count = (s.cells.card : Int) then s.cells else ∅

/-- `Sentence.known_safes`: returns the full cell set if `count == 0`,
else the empty set. -/
def known_safes (s : Sentence) : Finset Cell :=
  if s.count = 0 then s.cells else ∅

/-- `Sentence.mark_mine(cell)`: if the cell is present, remove it and
decrement the count; otherwise leave the sentence unchanged. -/
def mark_mine (s : Sentence) (c : Cell) : Sentence :=
  if c ∈ s.cells then ⟨s.cells.erase c, s.count - 1⟩ else s

/-- `Sentence.mark_safe(cell)`: if the cell is present, remove it and
leave the count unchanged; otherwise leave the sentence unchanged. -/
def mark_safe (s : Sentence) (c : Cell) : Sentence :=
  if c ∈ s.cells then ⟨s.cells.erase c, s.count⟩ else s

/-- Set-level effect of marking every cell of `cs` safe in a sentence:
all those cells are removed, the count is unchanged. -/
def markSafes (s : Sentence) (cs : Finset Cell) : Sentence :=
  ⟨s.cells \ cs, s.count⟩

/-- Set-level effect of marking every cell of `cs` as a mine in a
sentence: all those cells are removed and the count drops by the number
of them that were present. -/
def markMines (s : Sentence) (cs : Finset Cell) : Sentence :=
  ⟨s.cells \ cs, s.count - ((s.cells ∩ cs).card : Int)⟩

end Sentence

lemma mark_safe_cells (s : Sentence) (c : Cell) :
    (s.mark_safe c).cells = s.cells.erase c := by
  unfold Sentence.mark_safe
  split
  · rfl
  · simp_all [Finset.erase_eq_of_not_mem]

lemma mark_safe_count (s : Sentence) (c : Cell) :
    (s.mark_safe c).count = s.count := by
  unfold Sentence.mark_safe
  split <;> rfl

lemma mark_mine_cells (s : Sentence) (c : Cell) :
    (s.mark_mine c).cells = s.cells.erase c := by
  unfold Sentence.mark_mine
  split
  · rfl
  · simp_all [Finset.erase_eq_of_not_mem]

/-- Folding the per-cell `mark_safe` of the source over any enumeration
of a set of cells equals the set-level `markSafes`. -/
lemma foldl_mark_safe_toFinset (l : List Cell) (s : Sentence) :
    l.foldl Sentence.mark_safe s = s.markSafes l.toFinset := by
  induction l generalizing s with
  | nil => simp [Sentence.markSafes]
  | cons c t ih =>
      simp only [List.foldl_cons, ih, List.toFinset_cons]
      unfold Sentence.markSafes
      rw [mark_safe_cells, mark_safe_count]
      congr 1
      rw [Finset.erase_eq]
      ext x
      simp only [Finset.mem_sdiff, Finset.mem_insert, Finset.mem_singleton]
      tauto

/-- Folding the per-cell `mark_mine` of the source over a duplicate-free
enumeration of a set of cells equals the set-level `markMines`. -/
lemma foldl_mark_mine_toFinset (l : List Cell) (s : Sentence) (hl : l.Nodup) :
    l.foldl Sentence.mark_mine s = s.markMines l.toFinset := by
  induction l generalizing s with
  | nil => simp [Sentence.markMines]
  | cons c t ih =>
      have hc : c ∉ t := by simpa using hl.not_mem
      have ht : t.Nodup := hl.of_cons
      simp only [List.foldl_cons, ih _ ht, List.toFinset_cons]
      unfold Sentence.markMines
      rw [mark_mine_cells]
      have hcells : s.cells.erase c \ t.toFinset = s.cells \ insert c t.toFinset := by
        rw [Finset.erase_eq]
        ext x
        simp only [Finset.mem_sdiff, Finset.mem_insert, Finset.mem_singleton]
        tauto
      by_cases hmem : c ∈ s.cells
      · have hcount : (s.mark_mine c).count = s.count - 1 := by
          unfold Sentence.mark_mine
          simp [hmem]
        rw [hcount, hcells]
        congr 1
        have hinter : s.cells ∩ insert c t.toFinset =
            insert c (s.cells.erase c ∩ t.toFinset) := by
          ext x
          simp only [Finset.mem_inter, Finset.mem_insert, Finset.mem_erase,
            Finset.mem_singleton]
          constructor
          · rintro ⟨hx, hx2 | hx3⟩
            · exact Or.inl hx2
            · by_cases hxc : x = c
              · exact Or.inl hxc
              · exact Or.inr ⟨⟨hxc, hx⟩, hx3⟩
          · rintro (rfl | ⟨⟨_, hx⟩, hx3⟩)
            · exact ⟨hmem, Or.inl rfl⟩
            · exact ⟨hx, Or.inr hx3⟩
        have hnotin : c ∉ s.cells.erase c ∩ t.toFinset := by
          simp [Finset.mem_erase]
        rw [hinter, Finset.card_insert_of_not_mem hnotin]
        push_cast
        ring
      · have heq : s.mark_mine c = s := by
          unfold Sentence.mark_mine
          simp [hmem]
        rw [heq, hcells]
        congr 1
        have hinter : s.cells ∩ insert c t.toFinset = s.cells ∩ t.toFinset := by
          ext x
          simp only [Finset.mem_inter, Finset.mem_insert]
          constructor
          · rintro ⟨hx, rfl | hx3⟩
            · exact absurd hx hmem
            · exact ⟨hx, hx3⟩
          · rintro ⟨hx, hx3⟩
            exact ⟨hx, Or.inr hx3⟩
        rw [hinter, Finset.erase_eq_of_not_mem hmem]

/-- Agent state of `MinesweeperAI`: grid dimensions, the set of moves
made, the two certainty sets and the knowledge base (a Python list). -/
structure MinesweeperAI where
  height : Int
  width : Int
  moves_made : Finset Cell
  mines : Finset Cell
  safes : Finset Cell
  knowledge : List Sentence
deriving DecidableEq

/-- `MinesweeperAI.__init__`: fresh agent for an `h × w` grid with empty
certainty sets and empty knowledge base. -/
def MinesweeperAI.init (h w : Int) : MinesweeperAI :=
  ⟨h, w, ∅, ∅, ∅, []⟩

/-- Agent-level `mark_mine`: add the cell to `mines` and forward
`Sentence.mark_mine` to every sentence of the knowledge base. -/
def MinesweeperAI.mark_mine (ai : MinesweeperAI) (c : Cell) : MinesweeperAI :=
  { ai with
    mines := insert c ai.mines
    knowledge := ai.knowledge.map (fun s => s.mark_mine c) }

/-- Agent-level `mark_safe`: add the cell to `safes` and forward
`Sentence.mark_safe` to every sentence of the knowledge base. -/
def MinesweeperAI.mark_safe (ai : MinesweeperAI) (c : Cell) : MinesweeperAI :=
  { ai with
    safes := insert c ai.safes
    knowledge := ai.knowledge.map (fun s => s.mark_safe c) }

/-- The 3 × 3 block of cells scanned by the neighbour loops of
`add_knowledge` and `nearby_mines`: all cells within one row and one
column of `cell`, the cell itself included. -/
def nbhd (cell : Cell) : Finset Cell :=
  ([(-1, -1), (-1, 0), (-1, 1), (0, -1), (0, 0), (0, 1), (1, -1), (1, 0),
      (1, 1)].map (fun d : Int × Int => (cell.1 + d.1, cell.2 + d.2))).toFinset

/-- The cell lies on the `h × w` grid: `0 <= row < height` and
`0 <= col < width`. -/
def inBounds (h w : Int) (c : Cell) : Prop :=
  0 ≤ c.1 ∧ c.1 < h ∧ 0 ≤ c.2 ∧ c.2 < w

instance (h w : Int) (c : Cell) : Decidable (inBounds h w c) := by
  unfold inBounds
  infer_instance

/-- The inner subset-resolution loop of `add_knowledge`
(`for other_sentence in self.knowledge:` with appends to the list being
iterated): `kb` is the current knowledge base, `queue` the cells of the
list not yet visited by the iterator; an appended sentence joins both.
`fuel` bounds the number of iterations (the Python loop always
terminates because only sentences not yet present are appended and only
finitely many are expressible; every run in this development stays far
below the fuel given to it). -/
def innerLoop (sentence : Sentence) : Nat → List Sentence → List Sentence → List Sentence
  | 0, kb, _ => kb
  | _ + 1, kb, [] => kb
  | fuel + 1, kb, other :: queue =>
    if ¬sentence = other ∧ other.cells ⊆ sentence.cells then
      if (⟨sentence.cells \ other.cells, sentence.count - other.count⟩ : Sentence) ∈ kb then
        innerLoop sentence fuel kb queue
      else
        innerLoop sentence fuel
          (kb ++ [⟨sentence.cells \ other.cells, sentence.count - other.count⟩])
          (queue ++ [⟨sentence.cells \ other.cells, sentence.count - other.count⟩])
    else innerLoop sentence fuel kb queue

/-- State threaded through the propagation pass of `add_knowledge`. -/
structure PassState where
  safes : Finset Cell
  mines : Finset Cell
  kb : List Sentence
deriving DecidableEq

/-- The outer propagation loop of `add_knowledge`
(`for sentence in self.knowledge:`).  In the source this iterates over
the list object bound to `self.knowledge` when the loop starts; the loop
body rebinds `self.knowledge` to a fresh filtered list in each
iteration, so the iterator keeps walking the original snapshot
(`pending`) while marks mutate the shared `Sentence` objects — hence
marks are applied both to the current base `st.kb` and to the not yet
visited part of the snapshot (on sentences already dropped as empty the
mark is a no-op, which the value-level map reproduces).  The first
argument after `fuel` is the number of remaining iterations; it is
always instantiated with the length of the snapshot, which the marking
map preserves, so the loop runs the snapshot to completion exactly as in
the source (the bound only makes the recursion structural). -/
def forwardPass (fuel : Nat) : Nat → List Sentence → PassState → PassState
  | _, [], st => st
  | 0, _ :: _, st => st
  | n + 1, sentence :: pending, st =>
    let sentence_safes := sentence.known_safes
    let sentence_mines := sentence.known_mines
    let applyMarks : Sentence → Sentence :=
      fun t => (t.markSafes sentence_safes).markMines sentence_mines
    let safes1 := st.safes ∪ sentence_safes
    let mines1 := st.mines ∪ sentence_mines
    let kb1 := (st.kb.map applyMarks).filter (fun t => 0 < t.cells.card)
    let kb2 := innerLoop (applyMarks sentence) fuel kb1 kb1
    forwardPass fuel n (pending.map applyMarks) ⟨safes1, mines1, kb2⟩

/-- Steps 1–2 of `add_knowledge`: record the move in `moves_made` and
mark the cell safe unless it already is. -/
def recordMove (ai : MinesweeperAI) (cell : Cell) : MinesweeperAI :=
  let ai1 : MinesweeperAI := { ai with moves_made := insert cell ai.moves_made }
  if cell ∉ ai1.safes then ai1.mark_safe cell else ai1

/-- The observation phase of `add_knowledge` (steps 1–3 of its
docstring): record the move, mark the cell safe if not already known
safe, build the observation sentence over the unresolved in-bounds
neighbours (known mines excluded with the count adjusted), and append
it to the knowledge base if new and non-empty. -/
def observeStep (ai : MinesweeperAI) (cell : Cell) (count : Int) : MinesweeperAI :=
  let ai2 : MinesweeperAI := recordMove ai cell
  let neighbour_cells :=
    (nbhd cell).filter (fun p => inBounds ai2.height ai2.width p ∧ p ∉ ai2.safes)
  let known_mines_in_neighbours := neighbour_cells.filter (fun p => p ∈ ai2.mines)
  let new_sentence : Sentence :=
    ⟨neighbour_cells \ known_mines_in_neighbours,
      count - (known_mines_in_neighbours.card : Int)⟩
  let kb :=
    if ¬new_sentence ∈ ai2.knowledge ∧ ¬new_sentence.cells = (∅ : Finset Cell) then
      ai2.knowledge ++ [new_sentence]
    else ai2.knowledge
  { ai2 with knowledge := kb }

/-- `MinesweeperAI.add_knowledge(cell, count)`: the observation phase
followed by one propagation pass (steps 4–5) over the snapshot of the
knowledge base taken right after the observation sentence was appended. -/
def MinesweeperAI.add_knowledge (ai : MinesweeperAI) (cell : Cell) (count : Int)
    (fuel : Nat) : MinesweeperAI :=
  let ai3 := observeStep ai cell count
  let ps := forwardPass fuel ai3.knowledge.length ai3.knowledge
    ⟨ai3.safes, ai3.mines, ai3.knowledge⟩
  { ai3 with safes := ps.safes, mines := ps.mines, knowledge := ps.kb }

/-- `Minesweeper.nearby_mines(cell)` of the environment: the number of
mines within one row and column of the cell, the cell itself excluded,
counted over in-bounds cells only.  `isMine` is the board's mine
predicate. -/
def trueCount (isMine : Cell → Bool) (h w : Int) (cell : Cell) : Int :=
  (((nbhd cell).filter
      (fun p => ¬p = cell ∧ inBounds h w p ∧ isMine p = true)).card : Int)

/-- A game against the environment: starting from a fresh agent, feed
each queried cell together with the environment's true neighbour-mine
count to `add_knowledge`. -/
def runGame (fuel : Nat) (isMine : Cell → Bool) (h w : Int)
    (queries : List Cell) : MinesweeperAI :=
  queries.foldl
    (fun ai q => ai.add_knowledge q (trueCount isMine h w q) fuel)
    (MinesweeperAI.init h w)

/-- `MinesweeperAI.make_safe_move`: return the first cell of the
iteration order of `safes` that is not in `moves_made`, else `None`.
Python iterates the set `self.safes` in an unspecified order, modelled
by the explicit enumeration `order`; the agent state is returned
unchanged because the source mutates nothing. -/
def MinesweeperAI.make_safe_move (ai : MinesweeperAI) (order : List Cell) :
    Option Cell × MinesweeperAI :=
  (order.find? (fun c => decide (c ∉ ai.moves_made)), ai)

/-- The bounded random-sampling loop of `make_random_move`: while the
current cell is a known mine or an already made move, draw a fresh cell
and increment the counter, breaking once the counter reaches 10.
`draws n` is the n-th random draw. -/
def randLoop (mines moves_made : Finset Cell) (draws : Nat → Cell)
    (counter : Nat) (cell : Cell) : Nat × Cell :=
  if cell ∈ mines ∨ cell ∈ moves_made then
    if h10 : 10 ≤ counter + 1 then (counter + 1, draws (counter + 1))
    else randLoop mines moves_made draws (counter + 1) (draws (counter + 1))
  else (counter, cell)
termination_by 10 - counter
decreasing_by omega

/-- The grid cells in row-major order, as scanned by the fallback loop
of `make_random_move`. -/
def scanCells (h w : Int) : List Cell :=
  (List.range h.toNat).flatMap
    (fun r => (List.range w.toNat).map (fun c : Nat => ((r : Int), (c : Int))))

/-- `MinesweeperAI.make_random_move`: draw up to ten random cells
looking for one that is neither a known mine nor an already made move;
on failure scan the grid in row-major order for the first such cell,
returning `none` if there is none.  `random.randrange` raises
`ValueError` when the grid has no positive extent, modelled by
`Except.error`. -/
def MinesweeperAI.make_random_move (ai : MinesweeperAI) (draws : Nat → Cell) :
    Except Unit (Option Cell) :=
  if ai.height ≤ 0 ∨ ai.width ≤ 0 then .error ()
  else
    let r := randLoop ai.mines ai.moves_made draws 0 (draws 0)
    if r.1 < 10 then .ok (some r.2)
    else
      .ok ((scanCells ai.height ai.width).find?
        (fun c => decide (c ∉ ai.mines ∧ c ∉ ai.moves_made)))

/-- C4: for every `Sentence`, `known_mines()` returns exactly the cell
set when the count equals the number of cells, and the empty set
otherwise.  (The embedding is a pure function of the sentence, matching
the source, which reads but never writes `self.cells` and `self.count`.) -/
theorem claim_C4_known_mines (s : Sentence) :
    (s.count = (s.cells.card : Int) → s.known_mines = s.cells) ∧
    (s.count ≠ (s.cells.card : Int) → s.known_mines = ∅) := by
  unfold Sentence.known_mines
  constructor
  · intro h
    simp [h]
  · intro h
    simp [h]

/-- Witness for C4 at concrete sentences exercising both branches. -/
theorem claim_C4_witness :
    (Sentence.mk {((0 : Int), (0 : Int))} 1).known_mines = {((0 : Int), (0 : Int))} ∧
    (Sentence.mk {((0 : Int), (0 : Int))} 0).known_mines = ∅ :=
  ⟨(claim_C4_known_mines _).1 (by decide), (claim_C4_known_mines _).2 (by decide)⟩

/-- C5: for every `Sentence`, `known_safes()` returns exactly the cell
set when the count is zero, and the empty set otherwise.  (Pure function
of the sentence, as in the source.) -/
theorem claim_C5_known_safes (s : Sentence) :
    (s.count = 0 → s.known_safes = s.cells) ∧
    (s.count ≠ 0 → s.known_safes = ∅) := by
  unfold Sentence.known_safes
  constructor
  · intro h
    simp [h]
  · intro h
    simp [h]

/-- Witness for C5 at concrete sentences exercising both branches. -/
theorem claim_C5_witness :
    (Sentence.mk {((0 : Int), (0 : Int))} 0).known_safes = {((0 : Int), (0 : Int))} ∧
    (Sentence.mk {((0 : Int), (0 : Int))} 1).known_safes = ∅ :=
  ⟨(claim_C5_known_safes _).1 (by decide), (claim_C5_known_safes _).2 (by decide)⟩

/-- C6: `Sentence.mark_mine` removes a present cell and decrements the
count, `Sentence.mark_safe` removes a present cell leaving the count
unchanged, both are no-ops on absent cells, and both are idempotent. -/
theorem claim_C6_sentence_marks (s : Sentence) (c : Cell) :
    (c ∈ s.cells →
      (s.mark_mine c).cells = s.cells.erase c ∧ (s.mark_mine c).count = s.count - 1) ∧
    (c ∉ s.cells → s.mark_mine c = s) ∧
    (c ∈ s.cells →
      (s.mark_safe c).cells = s.cells.erase c ∧ (s.mark_safe c).count = s.count) ∧
    (c ∉ s.cells → s.mark_safe c = s) ∧
    (s.mark_mine c).mark_mine c = s.mark_mine c ∧
    (s.mark_safe c).mark_safe c = s.mark_safe c := by
  by_cases hc : c ∈ s.cells <;>
    simp [Sentence.mark_mine, Sentence.mark_safe, hc, Finset.not_mem_erase]

/-- Witness for C6 at a concrete sentence and cell, both branches. -/
theorem claim_C6_witness :
    (Sentence.mk {((0 : Int), (0 : Int))} 1).mark_mine ((0 : Int), (0 : Int)) =
        Sentence.mk ∅ 0 ∧
    (Sentence.mk {((0 : Int), (0 : Int))} 1).mark_safe ((1 : Int), (1 : Int)) =
        Sentence.mk {((0 : Int), (0 : Int))} 1 := by
  constructor
  · have h := (claim_C6_sentence_marks (Sentence.mk {((0 : Int), (0 : Int))} 1)
      ((0 : Int), (0 : Int))).1 (by decide)
    have hcells := h.1
    have hcount := h.2
    have : (Sentence.mk {((0 : Int), (0 : Int))} 1).mark_mine ((0 : Int), (0 : Int)) =
        Sentence.mk ((Sentence.mk {((0 : Int), (0 : Int))} 1).mark_mine
          ((0 : Int), (0 : Int))).cells ((Sentence.mk {((0 : Int), (0 : Int))} 1).mark_mine
          ((0 : Int), (0 : Int))).count := rfl
    rw [this, hcells, hcount]
    decide
  · exact (claim_C6_sentence_marks _ _).2.2.2.1 (by decide)

/-- C10: the agent-level mark operations update only their own certainty
set and the knowledge base: `mark_mine` does not consult or change
`safes`, `mark_safe` does not consult or change `mines`, neither touches
`moves_made`, and marking the same cell safe then mine leaves it in both
certainty sets. -/
theorem claim_C10_agent_marks (ai : MinesweeperAI) (c : Cell) :
    (ai.mark_mine c).mines = insert c ai.mines ∧
    (ai.mark_mine c).safes = ai.safes ∧
    (ai.mark_mine c).moves_made = ai.moves_made ∧
    (ai.mark_safe c).safes = insert c ai.safes ∧
    (ai.mark_safe c).mines = ai.mines ∧
    (ai.mark_safe c).moves_made = ai.moves_made ∧
    c ∈ ((ai.mark_safe c).mark_mine c).safes ∧
    c ∈ ((ai.mark_safe c).mark_mine c).mines := by
  refine ⟨rfl, rfl, rfl, rfl, rfl, rfl, ?_, ?_⟩ <;>
    simp [MinesweeperAI.mark_mine, MinesweeperAI.mark_safe]

/-- C8: `make_safe_move` returns a yet unplayed safe cell whenever one
exists, the absence sentinel when every safe cell has been played, and
never changes the agent state.  `order` is the iteration order of the
Python set `self.safes`. -/
theorem claim_C8_make_safe_move (ai : MinesweeperAI) (order : List Cell)
    (horder : ∀ c : Cell, c ∈ order ↔ c ∈ ai.safes) :
    ((∃ c ∈ ai.safes, c ∉ ai.moves_made) →
      ∃ r, (ai.make_safe_move order).1 = some r ∧ r ∈ ai.safes ∧ r ∉ ai.moves_made) ∧
    ((∀ c ∈ ai.safes, c ∈ ai.moves_made) → (ai.make_safe_move order).1 = none) ∧
    (ai.make_safe_move order).2 = ai := by
  refine ⟨?_, ?_, rfl⟩
  · rintro ⟨c, hcs, hcm⟩
    rcases hfind : (ai.make_safe_move order).1 with _ | r
    · exfalso
      have hnone : ∀ x ∈ order, ¬decide (x ∉ ai.moves_made) = true := by
        rw [← List.find?_eq_none]
        exact hfind
      exact hnone c ((horder c).mpr hcs) (by simpa using hcm)
    · refine ⟨r, rfl, ?_, ?_⟩
      · exact (horder r).mp (List.mem_of_find?_eq_some hfind)
      · simpa using List.find?_some hfind
  · intro hall
    rw [show (ai.make_safe_move order).1 = order.find? (fun c => decide (c ∉ ai.moves_made))
      from rfl]
    rw [List.find?_eq_none]
    intro x hx
    simpa using hall x ((horder x).mp hx)

/-- Witness for C8: an agent whose single safe cell is already played;
the move query returns the sentinel and the state is unchanged. -/
theorem claim_C8_witness :
    (MinesweeperAI.make_safe_move
        ⟨2, 2, {((0 : Int), (0 : Int))}, ∅, {((0 : Int), (0 : Int))}, []⟩
        [((0 : Int), (0 : Int))]).1 = none ∧
    (MinesweeperAI.make_safe_move
        ⟨2, 2, {((0 : Int), (0 : Int))}, ∅, {((0 : Int), (0 : Int))}, []⟩
        [((0 : Int), (0 : Int))]).2 =
      ⟨2, 2, {((0 : Int), (0 : Int))}, ∅, {((0 : Int), (0 : Int))}, []⟩ :=
  ⟨(claim_C8_make_safe_move _ _ (by intro c; simp)).2.1 (by decide),
    (claim_C8_make_safe_move _ [((0 : Int), (0 : Int))] (by intro c; simp)).2.2⟩

lemma randLoop_eligible (mines moves_made : Finset Cell) (draws : Nat → Cell) :
    ∀ counter cell, (randLoop mines moves_made draws counter cell).1 < 10 →
      (randLoop mines moves_made draws counter cell).2 ∉ mines ∧
      (randLoop mines moves_made draws counter cell).2 ∉ moves_made := by
  intro counter cell
  induction counter, cell using randLoop.induct mines moves_made draws with
  | case1 counter cell hin h10 =>
      intro hlt
      rw [randLoop] at hlt
      simp only [if_pos hin, dif_pos h10] at hlt
      omega
  | case2 counter cell hin h10 ih =>
      intro hlt
      rw [randLoop] at hlt ⊢
      simp only [if_pos hin, dif_neg h10] at hlt ⊢
      exact ih hlt
  | case3 counter cell hin =>
      intro _
      rw [randLoop]
      simp only [if_neg hin]
      exact ⟨fun hc => hin (Or.inl hc), fun hc => hin (Or.inr hc)⟩

lemma randLoop_result_mem (mines moves_made : Finset Cell) (draws : Nat → Cell)
    (P : Cell → Prop) (hP : ∀ n, P (draws n)) :
    ∀ counter cell, P cell → P (randLoop mines moves_made draws counter cell).2 := by
  intro counter cell
  induction counter, cell using randLoop.induct mines moves_made draws with
  | case1 counter cell hin h10 =>
      intro _
      rw [randLoop]
      simp only [if_pos hin, dif_pos h10]
      exact hP _
  | case2 counter cell hin h10 ih =>
      intro _
      rw [randLoop]
      simp only [if_pos hin, dif_neg h10]
      exact ih (hP _)
  | case3 counter cell hin =>
      intro hc
      rw [randLoop]
      simp only [if_neg hin]
      exact hc

lemma randLoop_exhausted (mines moves_made : Finset Cell) (draws : Nat → Cell)
    (hd : ∀ n, draws n ∈ mines ∨ draws n ∈ moves_made) :
    ∀ counter cell, (cell ∈ mines ∨ cell ∈ moves_made) →
      10 ≤ (randLoop mines moves_made draws counter cell).1 := by
  intro counter cell
  induction counter, cell using randLoop.induct mines moves_made draws with
  | case1 counter cell hin h10 =>
      intro _
      rw [randLoop]
      simp only [if_pos hin, dif_pos h10]
      exact h10
  | case2 counter cell hin h10 ih =>
      intro _
      rw [randLoop]
      simp only [if_pos hin, dif_neg h10]
      exact ih (hd _)
  | case3 counter cell hin =>
      intro hc
      exact absurd hc hin

lemma mem_scanCells (h w : Int) (c : Cell) :
    c ∈ scanCells h w ↔ inBounds h w c := by
  obtain ⟨c1, c2⟩ := c
  constructor
  · intro hc
    obtain ⟨r, hr, hmem⟩ := List.mem_flatMap.mp hc
    obtain ⟨cc, hcc, heq⟩ := List.mem_map.mp hmem
    rw [List.mem_range] at hr hcc
    have h1 : (r : Int) = c1 := congrArg Prod.fst heq
    have h2 : (cc : Int) = c2 := congrArg Prod.snd heq
    unfold inBounds
    refine ⟨by omega, by omega, by omega, by omega⟩
  · intro hb
    unfold inBounds at hb
    obtain ⟨h1, h2, h3, h4⟩ := hb
    apply List.mem_flatMap.mpr
    refine ⟨c1.toNat, List.mem_range.mpr (by omega), ?_⟩
    apply List.mem_map.mpr
    refine ⟨c2.toNat, List.mem_range.mpr (by omega), ?_⟩
    have e1 : (c1.toNat : Int) = c1 := by omega
    have e2 : (c2.toNat : Int) = c2 := by omega
    rw [e1, e2]

/-- C7 (amended): on a grid of positive height and width,
`make_random_move` terminates and, for every sequence of in-bounds
random draws: if every in-bounds cell is a known mine or an already made
move it returns the absence sentinel, and otherwise it returns an
in-bounds cell that is neither a known mine nor an already made move.
(On a grid without positive extent `random.randrange` raises instead of
returning, see the counterexample.) -/
theorem claim_C7_make_random_move (ai : MinesweeperAI) (draws : Nat → Cell)
    (hh : 0 < ai.height) (hw : 0 < ai.width)
    (hd : ∀ n, inBounds ai.height ai.width (draws n)) :
    ((∀ c : Cell, inBounds ai.height ai.width c →
        c ∈ ai.mines ∨ c ∈ ai.moves_made) →
      ai.make_random_move draws = .ok none) ∧
    ((∃ c : Cell, inBounds ai.height ai.width c ∧
        c ∉ ai.mines ∧ c ∉ ai.moves_made) →
      ∃ r : Cell, ai.make_random_move draws = .ok (some r) ∧
        inBounds ai.height ai.width r ∧ r ∉ ai.mines ∧ r ∉ ai.moves_made) := by
  have hdim : ¬(ai.height ≤ 0 ∨ ai.width ≤ 0) := by omega
  constructor
  · intro hfull
    have hge : 10 ≤ (randLoop ai.mines ai.moves_made draws 0 (draws 0)).1 :=
      randLoop_exhausted _ _ _ (fun n => hfull _ (hd n)) 0 (draws 0) (hfull _ (hd 0))
    unfold MinesweeperAI.make_random_move
    rw [if_neg hdim, if_neg (by omega)]
    have hnone : (scanCells ai.height ai.width).find?
        (fun c => decide (c ∉ ai.mines ∧ c ∉ ai.moves_made)) = none := by
      rw [List.find?_eq_none]
      intro x hx
      have hxin : inBounds ai.height ai.width x := (mem_scanCells _ _ _).mp hx
      have := hfull x hxin
      simp only [decide_eq_true_eq]
      tauto
    rw [hnone]
  · rintro ⟨e, hein, hem, hemm⟩
    unfold MinesweeperAI.make_random_move
    rw [if_neg hdim]
    by_cases hlt : (randLoop ai.mines ai.moves_made draws 0 (draws 0)).1 < 10
    · rw [if_pos hlt]
      refine ⟨(randLoop ai.mines ai.moves_made draws 0 (draws 0)).2, rfl, ?_, ?_, ?_⟩
      · exact randLoop_result_mem _ _ _ _ hd 0 (draws 0) (hd 0)
      · exact (randLoop_eligible _ _ _ 0 (draws 0) hlt).1
      · exact (randLoop_eligible _ _ _ 0 (draws 0) hlt).2
    · rw [if_neg hlt]
      rcases hfind : (scanCells ai.height ai.width).find?
          (fun c => decide (c ∉ ai.mines ∧ c ∉ ai.moves_made)) with _ | r
      · exfalso
        rw [List.find?_eq_none] at hfind
        exact hfind e ((mem_scanCells _ _ _).mpr hein) (by simp [hem, hemm])
      · have hr : r ∉ ai.mines ∧ r ∉ ai.moves_made := by
          simpa using List.find?_some hfind
        exact ⟨r, rfl, (mem_scanCells _ _ _).mp (List.mem_of_find?_eq_some hfind),
          hr.1, hr.2⟩

/-- Witness for C7 at a concrete agent: a 1×1 grid whose only cell has
been played returns the sentinel, and a 1×2 grid with a mined first cell
returns the eligible second cell (shown through the amended theorem). -/
theorem claim_C7_witness :
    MinesweeperAI.make_random_move
        ⟨1, 1, {((0 : Int), (0 : Int))}, ∅, ∅, []⟩
        (fun _ => ((0 : Int), (0 : Int))) = .ok none :=
  (claim_C7_make_random_move ⟨1, 1, {((0 : Int), (0 : Int))}, ∅, ∅, []⟩
      (fun _ => ((0 : Int), (0 : Int))) (by decide) (by decide)
      (by
        intro n
        show inBounds (1 : Int) (1 : Int) ((0 : Int), (0 : Int))
        decide)).1
    (by
      intro c hc
      have : c = ((0 : Int), (0 : Int)) := by
        obtain ⟨c1, c2⟩ := c
        simp only [inBounds] at hc
        have : c1 = 0 := by omega
        have : c2 = 0 := by omega
        simp_all
      subst this
      right
      decide)

/-- Counterexample to C7 as stated: on an agent whose grid has height
and width 0 every in-bounds cell (there are none) is trivially in
`mines ∪ moves_made`, yet `make_random_move` does not return the absence
sentinel — the underlying `random.randrange(0)` raises `ValueError`,
modelled by `Except.error`. -/
theorem claim_C7_counterexample :
    MinesweeperAI.make_random_move ⟨0, 0, ∅, ∅, ∅, []⟩
        (fun _ => ((0 : Int), (0 : Int))) = .error () ∧
    MinesweeperAI.make_random_move ⟨0, 0, ∅, ∅, ∅, []⟩
        (fun _ => ((0 : Int), (0 : Int))) ≠ .ok none := by
  constructor
  · rfl
  · intro h
    exact Except.noConfusion (h.symm.trans rfl)

lemma innerLoop_eq_append (A : Sentence) :
    ∀ (fuel : Nat) (kb queue : List Sentence),
      ∃ t, innerLoop A fuel kb queue = kb ++ t := by
  intro fuel
  induction fuel with
  | zero =>
      intro kb queue
      exact ⟨[], by simp [innerLoop]⟩
  | succ n ih =>
      intro kb queue
      cases queue with
      | nil => exact ⟨[], by simp [innerLoop]⟩
      | cons other rest =>
          rw [innerLoop]
          split
          · split
            · exact ih kb rest
            · obtain ⟨t, ht⟩ :=
                ih (kb ++ [⟨A.cells \ other.cells, A.count - other.count⟩])
                  (rest ++ [⟨A.cells \ other.cells, A.count - other.count⟩])
              exact ⟨⟨A.cells \ other.cells, A.count - other.count⟩ :: t,
                by rw [ht, List.append_assoc]; rfl⟩
          · exact ih kb rest

lemma innerLoop_nodup (A : Sentence) :
    ∀ (fuel : Nat) (kb queue : List Sentence), kb.Nodup →
      (innerLoop A fuel kb queue).Nodup := by
  intro fuel
  induction fuel with
  | zero =>
      intro kb queue h
      simpa [innerLoop] using h
  | succ n ih =>
      intro kb queue h
      cases queue with
      | nil => simpa [innerLoop] using h
      | cons other rest =>
          rw [innerLoop]
          split
          · split
            · exact ih _ _ h
            · rename_i hmem
              apply ih
              refine List.Nodup.append h (List.nodup_singleton _) ?_
              intro a ha hd
              rw [List.mem_singleton] at hd
              subst hd
              exact hmem ha
          · exact ih _ _ h

/-- C2 (amended): in the subset-resolution loop a candidate difference
sentence is appended only when it is not already present in the
knowledge base — the base is only ever extended, and it stays free of
duplicates.  There is no emptiness check on the candidate: when two
distinct sentences in the base share the same cell set (so the
difference has an empty cell set) the empty-celled candidate is appended
all the same, see the counterexample. -/
theorem claim_C2_subset_resolution (A : Sentence) (fuel : Nat)
    (kb queue : List Sentence) :
    (∃ t, innerLoop A fuel kb queue = kb ++ t) ∧
    (kb.Nodup → (innerLoop A fuel kb queue).Nodup) :=
  ⟨innerLoop_eq_append A fuel kb queue, innerLoop_nodup A fuel kb queue⟩

/-- Witness for C2 (amended) at a concrete subset-resolution run. -/
theorem claim_C2_witness :
    (innerLoop (Sentence.mk {((0 : Int), (0 : Int)), ((0 : Int), (1 : Int))} 1) 5
      [Sentence.mk {((0 : Int), (0 : Int))} 1]
      [Sentence.mk {((0 : Int), (0 : Int))} 1]).Nodup :=
  (claim_C2_subset_resolution _ 5 _ _).2 (by decide)

/-- Counterexample to C2 as stated: after `add_knowledge((0,0), 1)` and
`add_knowledge((0,0), 2)` on a fresh 2×3 agent (the second observation
contradicts the first; `add_knowledge` accepts any count), the two
observation sentences share the cell set `{(0,1),(1,0),(1,1)}` with
counts 1 and 2, and subset-resolution appends their empty-celled
difference, which remains in the knowledge base — the append condition
of the source checks only non-membership, not non-emptiness.  The last
conjunct exhibits the append itself on the subset-resolution loop. -/
theorem claim_C2_counterexample :
    (Sentence.mk ∅ 1) ∈
      (((MinesweeperAI.init 2 3).add_knowledge ((0 : Int), (0 : Int)) 1 100).add_knowledge
        ((0 : Int), (0 : Int)) 2 100).knowledge ∧
    (Sentence.mk ∅ 1).cells = ∅ ∧
    (Sentence.mk ∅ (-1)) ∈
      innerLoop
        (Sentence.mk {((0 : Int), (1 : Int)), ((1 : Int), (0 : Int)), ((1 : Int), (1 : Int))} 1)
        100
        [Sentence.mk {((0 : Int), (1 : Int)), ((1 : Int), (0 : Int)), ((1 : Int), (1 : Int))} 1,
          Sentence.mk {((0 : Int), (1 : Int)), ((1 : Int), (0 : Int)), ((1 : Int), (1 : Int))} 2]
        [Sentence.mk {((0 : Int), (1 : Int)), ((1 : Int), (0 : Int)), ((1 : Int), (1 : Int))} 1,
          Sentence.mk {((0 : Int), (1 : Int)), ((1 : Int), (0 : Int)), ((1 : Int), (1 : Int))} 2] := by
  decide

/-- The sentence is true of the board `m`: its count equals the number
of its cells that actually hold mines. -/
def SentenceTrue (m : Cell → Bool) (s : Sentence) : Prop :=
  s.count = ((s.cells.filter (fun c => m c = true)).card : Int)

/-- No cell of the sentence has already been resolved into one of the
certainty sets. -/
def Clean (safes mines : Finset Cell) (s : Sentence) : Prop :=
  ∀ c ∈ s.cells, c ∉ safes ∧ c ∉ mines

lemma markSafes_cells (s : Sentence) (cs : Finset Cell) :
    (s.markSafes cs).cells = s.cells \ cs := rfl

lemma markSafes_count (s : Sentence) (cs : Finset Cell) :
    (s.markSafes cs).count = s.count := rfl

lemma markMines_cells (s : Sentence) (cs : Finset Cell) :
    (s.markMines cs).cells = s.cells \ cs := rfl

lemma markMines_count (s : Sentence) (cs : Finset Cell) :
    (s.markMines cs).count = s.count - ((s.cells ∩ cs).card : Int) := rfl

lemma known_safes_sound (m : Cell → Bool) (s : Sentence) (hs : SentenceTrue m s) :
    ∀ c ∈ s.known_safes, m c = false := by
  intro c hc
  unfold Sentence.known_safes at hc
  split at hc
  · rename_i h0
    unfold SentenceTrue at hs
    have hcard : (s.cells.filter (fun x => m x = true)).card = 0 := by omega
    have hfe := Finset.card_eq_zero.mp hcard
    cases hb : m c with
    | false => rfl
    | true =>
        have hmem : c ∈ s.cells.filter (fun x => m x = true) :=
          Finset.mem_filter.mpr ⟨hc, hb⟩
        rw [hfe] at hmem
        exact absurd hmem (Finset.not_mem_empty c)
  · exact absurd hc (Finset.not_mem_empty c)

lemma known_mines_sound (m : Cell → Bool) (s : Sentence) (hs : SentenceTrue m s) :
    ∀ c ∈ s.known_mines, m c = true := by
  intro c hc
  unfold Sentence.known_mines at hc
  split at hc
  · rename_i hcc
    unfold SentenceTrue at hs
    have hcard : (s.cells.filter (fun x => m x = true)).card = s.cells.card := by omega
    have hfe : s.cells.filter (fun x => m x = true) = s.cells :=
      Finset.eq_of_subset_of_card_le (Finset.filter_subset _ _) (by omega)
    have hmem : c ∈ s.cells.filter (fun x => m x = true) := by
      rw [hfe]
      exact hc
    exact (Finset.mem_filter.mp hmem).2
  · exact absurd hc (Finset.not_mem_empty c)

lemma markSafes_true (m : Cell → Bool) (s : Sentence) (cs : Finset Cell)
    (hs : SentenceTrue m s) (hcs : ∀ c ∈ cs, m c = false) :
    SentenceTrue m (s.markSafes cs) := by
  unfold SentenceTrue
  rw [markSafes_cells, markSafes_count]
  have hfe : (s.cells \ cs).filter (fun x => m x = true) =
      s.cells.filter (fun x => m x = true) := by
    ext x
    simp only [Finset.mem_filter, Finset.mem_sdiff]
    constructor
    · rintro ⟨⟨hx, _⟩, hp⟩
      exact ⟨hx, hp⟩
    · rintro ⟨hx, hp⟩
      refine ⟨⟨hx, ?_⟩, hp⟩
      intro hxc
      rw [hcs x hxc] at hp
      exact Bool.noConfusion hp
  rw [hfe]
  exact hs

lemma markMines_true (m : Cell → Bool) (s : Sentence) (cs : Finset Cell)
    (hs : SentenceTrue m s) (hcs : ∀ c ∈ cs, m c = true) :
    SentenceTrue m (s.markMines cs) := by
  unfold SentenceTrue at hs ⊢
  rw [markMines_cells, markMines_count]
  have h1 : (s.cells \ cs).filter (fun x => m x = true) =
      (s.cells.filter (fun x => m x = true)) \ cs := by
    ext x
    simp only [Finset.mem_filter, Finset.mem_sdiff]
    tauto
  have h2 : (s.cells.filter (fun x => m x = true)) ∩ cs = s.cells ∩ cs := by
    ext x
    simp only [Finset.mem_filter, Finset.mem_inter]
    constructor
    · rintro ⟨⟨hx, _⟩, hc⟩
      exact ⟨hx, hc⟩
    · rintro ⟨hx, hc⟩
      exact ⟨⟨hx, hcs x hc⟩, hc⟩
  have h3 := Finset.card_sdiff_add_card_inter
    (s.cells.filter (fun x => m x = true)) cs
  rw [h2] at h3
  rw [h1]
  omega

lemma applyMarks_clean (safes mines ss sm : Finset Cell) (s : Sentence)
    (h : Clean safes mines s) :
    Clean (safes ∪ ss) (mines ∪ sm) ((s.markSafes ss).markMines sm) := by
  intro c hc
  rw [markMines_cells, markSafes_cells] at hc
  rw [Finset.mem_sdiff] at hc
  obtain ⟨hc1, hc2⟩ := hc
  rw [Finset.mem_sdiff] at hc1
  obtain ⟨hc0, hc3⟩ := hc1
  obtain ⟨hsafe, hmine⟩ := h c hc0
  constructor
  · rw [Finset.mem_union]
    rintro (hx | hx)
    · exact hsafe hx
    · exact hc3 hx
  · rw [Finset.mem_union]
    rintro (hx | hx)
    · exact hmine hx
    · exact hc2 hx

lemma diff_true (m : Cell → Bool) (A B : Sentence)
    (hA : SentenceTrue m A) (hB : SentenceTrue m B) (hsub : B.cells ⊆ A.cells) :
    SentenceTrue m (⟨A.cells \ B.cells, A.count - B.count⟩ : Sentence) := by
  unfold SentenceTrue at hA hB ⊢
  simp only
  have h1 : (A.cells \ B.cells).filter (fun x => m x = true) =
      (A.cells.filter (fun x => m x = true)) \ B.cells := by
    ext x
    simp only [Finset.mem_filter, Finset.mem_sdiff]
    tauto
  have h2 : (A.cells.filter (fun x => m x = true)) ∩ B.cells =
      B.cells.filter (fun x => m x = true) := by
    ext x
    simp only [Finset.mem_filter, Finset.mem_inter]
    constructor
    · rintro ⟨⟨_, hp⟩, hb⟩
      exact ⟨hb, hp⟩
    · rintro ⟨hb, hp⟩
      exact ⟨⟨hsub hb, hp⟩, hb⟩
  have h3 := Finset.card_sdiff_add_card_inter
    (A.cells.filter (fun x => m x = true)) B.cells
  rw [h2] at h3
  rw [h1]
  omega

lemma diff_nonempty (m : Cell → Bool) (A B : Sentence)
    (hA : SentenceTrue m A) (hB : SentenceTrue m B) (hsub : B.cells ⊆ A.cells)
    (hne : ¬A = B) : ¬A.cells \ B.cells = ∅ := by
  intro hempty
  apply hne
  have hsub2 : A.cells ⊆ B.cells := by
    intro c hc
    by_contra hcb
    have : c ∈ A.cells \ B.cells := Finset.mem_sdiff.mpr ⟨hc, hcb⟩
    rw [hempty] at this
    exact absurd this (Finset.not_mem_empty c)
  have hcells : A.cells = B.cells := Finset.Subset.antisymm hsub2 hsub
  unfold SentenceTrue at hA hB
  obtain ⟨ac, an⟩ := A
  obtain ⟨bc, bn⟩ := B
  simp only at hcells hA hB ⊢
  subst hcells
  rw [hA, hB]

lemma innerLoop_pres (A : Sentence) (P Q : Sentence → Prop)
    (hgen : ∀ other : Sentence, Q other → other.cells ⊆ A.cells → ¬A = other →
      P ⟨A.cells \ other.cells, A.count - other.count⟩ ∧
      Q ⟨A.cells \ other.cells, A.count - other.count⟩) :
    ∀ (fuel : Nat) (kb queue : List Sentence),
      (∀ s ∈ kb, P s) → (∀ s ∈ queue, Q s) →
      ∀ s ∈ innerLoop A fuel kb queue, P s := by
  intro fuel
  induction fuel with
  | zero =>
      intro kb queue hP hQ s hs
      rw [innerLoop] at hs
      exact hP s hs
  | succ n ih =>
      intro kb queue hP hQ s hs
      cases queue with
      | nil =>
          rw [innerLoop] at hs
          exact hP s hs
      | cons other rest =>
          rw [innerLoop] at hs
          split at hs
          · rename_i hcond
            split at hs
            · exact ih _ _ hP (fun t ht => hQ t (List.mem_cons_of_mem other ht)) s hs
            · have hPQ := hgen other (hQ other (List.mem_cons_self other rest))
                hcond.2 hcond.1
              refine ih _ _ ?_ ?_ s hs
              · intro t ht
                rcases List.mem_append.mp ht with h | h
                · exact hP t h
                · rw [List.mem_singleton] at h
                  subst h
                  exact hPQ.1
              · intro t ht
                rcases List.mem_append.mp ht with h | h
                · exact hQ t (List.mem_cons_of_mem other h)
                · rw [List.mem_singleton] at h
                  subst h
                  exact hPQ.2
          · exact ih _ _ hP (fun t ht => hQ t (List.mem_cons_of_mem other ht)) s hs

lemma forwardPass_sound (m : Cell → Bool) (fuel : Nat) :
    ∀ (n : Nat) (pending : List Sentence) (st : PassState),
      (∀ c ∈ st.safes, m c = false) → (∀ c ∈ st.mines, m c = true) →
      (∀ s ∈ st.kb, SentenceTrue m s) →
      (∀ s ∈ st.kb, Clean st.safes st.mines s) →
      (∀ s ∈ pending, SentenceTrue m s) →
      (∀ s ∈ pending, Clean st.safes st.mines s) →
      (∀ c ∈ (forwardPass fuel n pending st).safes, m c = false) ∧
      (∀ c ∈ (forwardPass fuel n pending st).mines, m c = true) ∧
      (∀ s ∈ (forwardPass fuel n pending st).kb, SentenceTrue m s) ∧
      (∀ s ∈ (forwardPass fuel n pending st).kb,
        Clean (forwardPass fuel n pending st).safes
          (forwardPass fuel n pending st).mines s) := by
  intro n
  induction n with
  | zero =>
      intro pending st h1 h2 h3 h4 h5 h6
      cases pending with
      | nil =>
          rw [forwardPass]
          exact ⟨h1, h2, h3, h4⟩
      | cons a rest =>
          rw [forwardPass]
          exact ⟨h1, h2, h3, h4⟩
  | succ n ih =>
      intro pending st h1 h2 h3 h4 h5 h6
      cases pending with
      | nil =>
          rw [forwardPass]
          exact ⟨h1, h2, h3, h4⟩
      | cons sentence rest =>
          rw [forwardPass]
          simp only
          have hsent_true : SentenceTrue m sentence := h5 sentence (List.mem_cons_self _ _)
          have hsent_clean : Clean st.safes st.mines sentence :=
            h6 sentence (List.mem_cons_self _ _)
          have hss : ∀ c ∈ sentence.known_safes, m c = false :=
            known_safes_sound m sentence hsent_true
          have hsm : ∀ c ∈ sentence.known_mines, m c = true :=
            known_mines_sound m sentence hsent_true
          have hA_true : SentenceTrue m
              ((sentence.markSafes sentence.known_safes).markMines sentence.known_mines) :=
            markMines_true m _ _ (markSafes_true m _ _ hsent_true hss) hsm
          have hA_clean : Clean (st.safes ∪ sentence.known_safes)
              (st.mines ∪ sentence.known_mines)
              ((sentence.markSafes sentence.known_safes).markMines sentence.known_mines) :=
            applyMarks_clean _ _ _ _ _ hsent_clean
          have hkb1_true : ∀ s ∈ (st.kb.map
              (fun t => (t.markSafes sentence.known_safes).markMines
                sentence.known_mines)).filter (fun t => 0 < t.cells.card),
              SentenceTrue m s := by
            intro s hs
            have hs2 := (List.mem_filter.mp hs).1
            obtain ⟨u, hu, rfl⟩ := List.mem_map.mp hs2
            exact markMines_true m _ _ (markSafes_true m _ _ (h3 u hu) hss) hsm
          have hkb1_clean : ∀ s ∈ (st.kb.map
              (fun t => (t.markSafes sentence.known_safes).markMines
                sentence.known_mines)).filter (fun t => 0 < t.cells.card),
              Clean (st.safes ∪ sentence.known_safes)
                (st.mines ∪ sentence.known_mines) s := by
            intro s hs
            have hs2 := (List.mem_filter.mp hs).1
            obtain ⟨u, hu, rfl⟩ := List.mem_map.mp hs2
            exact applyMarks_clean _ _ _ _ _ (h4 u hu)
          have hkb2_true : ∀ s ∈ innerLoop
              ((sentence.markSafes sentence.known_safes).markMines sentence.known_mines)
              fuel
              ((st.kb.map (fun t => (t.markSafes sentence.known_safes).markMines
                sentence.known_mines)).filter (fun t => 0 < t.cells.card))
              ((st.kb.map (fun t => (t.markSafes sentence.known_safes).markMines
                sentence.known_mines)).filter (fun t => 0 < t.cells.card)),
              SentenceTrue m s := by
            apply innerLoop_pres _ (SentenceTrue m) (SentenceTrue m) _ fuel _ _
              hkb1_true hkb1_true
            intro other hQ hsub _
            have hd := diff_true m _ other hA_true hQ hsub
            exact ⟨hd, hd⟩
          have hkb2_clean : ∀ s ∈ innerLoop
              ((sentence.markSafes sentence.known_safes).markMines sentence.known_mines)
              fuel
              ((st.kb.map (fun t => (t.markSafes sentence.known_safes).markMines
                sentence.known_mines)).filter (fun t => 0 < t.cells.card))
              ((st.kb.map (fun t => (t.markSafes sentence.known_safes).markMines
                sentence.known_mines)).filter (fun t => 0 < t.cells.card)),
              Clean (st.safes ∪ sentence.known_safes)
                (st.mines ∪ sentence.known_mines) s := by
            apply innerLoop_pres _
              (Clean (st.safes ∪ sentence.known_safes)
                (st.mines ∪ sentence.known_mines))
              (SentenceTrue m) _ fuel _ _ hkb1_clean hkb1_true
            intro other hQ hsub hne
            constructor
            · intro c hc
              simp only [Finset.mem_sdiff] at hc
              exact hA_clean c hc.1
            · exact diff_true m _ other hA_true hQ hsub
          apply ih
          · intro c hc
            rcases Finset.mem_union.mp hc with h | h
            · exact h1 c h
            · exact hss c h
          · intro c hc
            rcases Finset.mem_union.mp hc with h | h
            · exact h2 c h
            · exact hsm c h
          · exact hkb2_true
          · exact hkb2_clean
          · intro s hs
            obtain ⟨u, hu, rfl⟩ := List.mem_map.mp hs
            exact markMines_true m _ _
              (markSafes_true m _ _ (h5 u (List.mem_cons_of_mem _ hu)) hss) hsm
          · intro s hs
            obtain ⟨u, hu, rfl⟩ := List.mem_map.mp hs
            exact applyMarks_clean _ _ _ _ _ (h6 u (List.mem_cons_of_mem _ hu))

lemma forwardPass_nonempty (m : Cell → Bool) (fuel : Nat) :
    ∀ (n : Nat) (pending : List Sentence) (st : PassState),
      pending.length ≤ n →
      (∀ s ∈ st.kb, SentenceTrue m s) →
      (∀ s ∈ pending, SentenceTrue m s) →
      (pending = [] → ∀ s ∈ st.kb, ¬s.cells = ∅) →
      ∀ s ∈ (forwardPass fuel n pending st).kb, ¬s.cells = ∅ := by
  intro n
  induction n with
  | zero =>
      intro pending st hlen h3 h5 hne
      cases pending with
      | nil =>
          rw [forwardPass]
          exact hne rfl
      | cons a rest => simp at hlen
  | succ n ih =>
      intro pending st hlen h3 h5 hne
      cases pending with
      | nil =>
          rw [forwardPass]
          exact hne rfl
      | cons sentence rest =>
          rw [forwardPass]
          simp only
          have hsent_true : SentenceTrue m sentence := h5 sentence (List.mem_cons_self _ _)
          have hss : ∀ c ∈ sentence.known_safes, m c = false :=
            known_safes_sound m sentence hsent_true
          have hsm : ∀ c ∈ sentence.known_mines, m c = true :=
            known_mines_sound m sentence hsent_true
          have hA_true : SentenceTrue m
              ((sentence.markSafes sentence.known_safes).markMines sentence.known_mines) :=
            markMines_true m _ _ (markSafes_true m _ _ hsent_true hss) hsm
          have hkb1_true : ∀ s ∈ (st.kb.map
              (fun t => (t.markSafes sentence.known_safes).markMines
                sentence.known_mines)).filter (fun t => 0 < t.cells.card),
              SentenceTrue m s := by
            intro s hs
            have hs2 := (List.mem_filter.mp hs).1
            obtain ⟨u, hu, rfl⟩ := List.mem_map.mp hs2
            exact markMines_true m _ _ (markSafes_true m _ _ (h3 u hu) hss) hsm
          have hkb1_ne : ∀ s ∈ (st.kb.map
              (fun t => (t.markSafes sentence.known_safes).markMines
                sentence.known_mines)).filter (fun t => 0 < t.cells.card),
              ¬s.cells = ∅ := by
            intro s hs
            have hs2 := (List.mem_filter.mp hs).2
            intro hemp
            rw [hemp] at hs2
            simp at hs2
          apply ih
          · simpa using Nat.le_of_succ_le_succ hlen
          · apply innerLoop_pres _ (SentenceTrue m) (SentenceTrue m) _ fuel _ _
              hkb1_true hkb1_true
            intro other hQ hsub _
            have hd := diff_true m _ other hA_true hQ hsub
            exact ⟨hd, hd⟩
          · intro s hs
            obtain ⟨u, hu, rfl⟩ := List.mem_map.mp hs
            exact markMines_true m _ _
              (markSafes_true m _ _ (h5 u (List.mem_cons_of_mem _ hu)) hss) hsm
          · intro _
            apply innerLoop_pres _ (fun s => ¬s.cells = ∅) (SentenceTrue m) _ fuel _ _
              hkb1_ne hkb1_true
            intro other hQ hsub hne2
            exact ⟨diff_nonempty m _ other hA_true hQ hsub hne2,
              diff_true m _ other hA_true hQ hsub⟩

lemma mark_safe_eq_markSafes (s : Sentence) (c : Cell) :
    s.mark_safe c = s.markSafes {c} := by
  unfold Sentence.mark_safe Sentence.markSafes
  split
  · rw [Finset.erase_eq]
  · rename_i h
    rw [← Finset.erase_eq, Finset.erase_eq_of_not_mem h]

lemma mark_safe_true_single (m : Cell → Bool) (s : Sentence) (c : Cell)
    (hs : SentenceTrue m s) (hc : m c = false) : SentenceTrue m (s.mark_safe c) := by
  rw [mark_safe_eq_markSafes]
  apply markSafes_true m s _ hs
  intro x hx
  rw [Finset.mem_singleton] at hx
  subst hx
  exact hc

lemma recordMove_safes (ai : MinesweeperAI) (cell : Cell) :
    (recordMove ai cell).safes = insert cell ai.safes := by
  simp only [recordMove, MinesweeperAI.mark_safe]
  split
  · rfl
  · rename_i h
    rw [not_not] at h
    exact (Finset.insert_eq_self.mpr h).symm

lemma recordMove_mines (ai : MinesweeperAI) (cell : Cell) :
    (recordMove ai cell).mines = ai.mines := by
  simp only [recordMove, MinesweeperAI.mark_safe]
  split <;> rfl

lemma recordMove_height (ai : MinesweeperAI) (cell : Cell) :
    (recordMove ai cell).height = ai.height := by
  simp only [recordMove, MinesweeperAI.mark_safe]
  split <;> rfl

lemma recordMove_width (ai : MinesweeperAI) (cell : Cell) :
    (recordMove ai cell).width = ai.width := by
  simp only [recordMove, MinesweeperAI.mark_safe]
  split <;> rfl

lemma recordMove_kb_true (m : Cell → Bool) (ai : MinesweeperAI) (cell : Cell)
    (hm : m cell = false) (h3 : ∀ s ∈ ai.knowledge, SentenceTrue m s) :
    ∀ s ∈ (recordMove ai cell).knowledge, SentenceTrue m s := by
  simp only [recordMove, MinesweeperAI.mark_safe]
  split
  · intro s hs
    obtain ⟨u, hu, rfl⟩ := List.mem_map.mp hs
    exact mark_safe_true_single m u cell (h3 u hu) hm
  · exact h3

lemma recordMove_kb_clean (ai : MinesweeperAI) (cell : Cell)
    (h4 : ∀ s ∈ ai.knowledge, Clean ai.safes ai.mines s) :
    ∀ s ∈ (recordMove ai cell).knowledge,
      Clean (insert cell ai.safes) ai.mines s := by
  simp only [recordMove, MinesweeperAI.mark_safe]
  split
  · intro s hs
    obtain ⟨u, hu, rfl⟩ := List.mem_map.mp hs
    intro c hc
    rw [mark_safe_cells, Finset.mem_erase] at hc
    obtain ⟨hne, hcu⟩ := hc
    obtain ⟨hsafe, hmine⟩ := h4 u hu c hcu
    refine ⟨?_, hmine⟩
    rw [Finset.mem_insert]
    rintro (rfl | hx)
    · exact hne rfl
    · exact hsafe hx
  · rename_i h
    rw [not_not] at h
    intro s hs c hc
    obtain ⟨hsafe, hmine⟩ := h4 s hs c hc
    refine ⟨?_, hmine⟩
    rw [Finset.insert_eq_self.mpr h]
    exact hsafe

lemma filter_sdiff_comm (N K : Finset Cell) (p : Cell → Prop) [DecidablePred p] :
    (N \ K).filter p = N.filter p \ K := by
  ext q
  simp only [Finset.mem_filter, Finset.mem_sdiff]
  tauto

lemma obs_abstract (m : Cell → Bool) (tc : Int) (N K T : Finset Cell)
    (hT : N.filter (fun x => m x = true) = T)
    (hE2 : K ⊆ N.filter (fun x => m x = true))
    (htc : tc = (T.card : Int)) :
    SentenceTrue m ⟨N \ K, tc - (K.card : Int)⟩ := by
  unfold SentenceTrue
  show tc - (K.card : Int) = (((N \ K).filter (fun x => m x = true)).card : Int)
  rw [filter_sdiff_comm, Finset.card_sdiff hE2, hT]
  have hle := Finset.card_le_card hE2
  rw [hT] at hle
  omega

lemma obs_sentence_true (m : Cell → Bool) (h w : Int) (cell : Cell)
    (S2 M : Finset Cell) (hcell : cell ∈ S2) (hS : ∀ c ∈ S2, m c = false)
    (hM : ∀ c ∈ M, m c = true) :
    SentenceTrue m
      ⟨((nbhd cell).filter (fun p => inBounds h w p ∧ p ∉ S2)) \
          (((nbhd cell).filter (fun p => inBounds h w p ∧ p ∉ S2)).filter
            (fun p => p ∈ M)),
        trueCount m h w cell -
          ((((nbhd cell).filter (fun p => inBounds h w p ∧ p ∉ S2)).filter
            (fun p => p ∈ M)).card : Int)⟩ := by
  apply obs_abstract m _ _ _
    ((nbhd cell).filter (fun q => ¬q = cell ∧ inBounds h w q ∧ m q = true))
  · ext q
    simp only [Finset.mem_filter]
    constructor
    · rintro ⟨⟨hq, hb, hns⟩, hp⟩
      refine ⟨hq, ?_, hb, hp⟩
      rintro rfl
      exact hns hcell
    · rintro ⟨hq, hne, hb, hp⟩
      refine ⟨⟨hq, hb, ?_⟩, hp⟩
      intro hqs
      rw [hS q hqs] at hp
      exact Bool.noConfusion hp
  · intro q hq
    rw [Finset.mem_filter] at hq ⊢
    exact ⟨hq.1, hM q hq.2⟩
  · rfl

lemma obs_sentence_clean (h w : Int) (cell : Cell) (S2 M : Finset Cell) (cnt : Int) :
    Clean S2 M
      ⟨((nbhd cell).filter (fun p => inBounds h w p ∧ p ∉ S2)) \
          (((nbhd cell).filter (fun p => inBounds h w p ∧ p ∉ S2)).filter
            (fun p => p ∈ M)),
        cnt⟩ := by
  intro c hc
  simp only [Finset.mem_sdiff, Finset.mem_filter] at hc
  obtain ⟨⟨hcn, hcb, hns⟩, hnk⟩ := hc
  refine ⟨hns, ?_⟩
  intro hcm
  exact hnk ⟨⟨hcn, hcb, hns⟩, hcm⟩

lemma observeStep_height (ai : MinesweeperAI) (cell : Cell) (count : Int) :
    (observeStep ai cell count).height = ai.height := by
  simp only [observeStep]
  exact recordMove_height ai cell

lemma observeStep_width (ai : MinesweeperAI) (cell : Cell) (count : Int) :
    (observeStep ai cell count).width = ai.width := by
  simp only [observeStep]
  exact recordMove_width ai cell

lemma observeStep_pres (m : Cell → Bool) (ai : MinesweeperAI) (cell : Cell)
    (hm : m cell = false)
    (h1 : ∀ c ∈ ai.safes, m c = false) (h2 : ∀ c ∈ ai.mines, m c = true)
    (h3 : ∀ s ∈ ai.knowledge, SentenceTrue m s)
    (h4 : ∀ s ∈ ai.knowledge, Clean ai.safes ai.mines s) :
    (∀ c ∈ (observeStep ai cell (trueCount m ai.height ai.width cell)).safes,
      m c = false) ∧
    (∀ c ∈ (observeStep ai cell (trueCount m ai.height ai.width cell)).mines,
      m c = true) ∧
    (∀ s ∈ (observeStep ai cell (trueCount m ai.height ai.width cell)).knowledge,
      SentenceTrue m s) ∧
    (∀ s ∈ (observeStep ai cell (trueCount m ai.height ai.width cell)).knowledge,
      Clean (observeStep ai cell (trueCount m ai.height ai.width cell)).safes
        (observeStep ai cell (trueCount m ai.height ai.width cell)).mines s) := by
  simp only [observeStep]
  rw [recordMove_safes, recordMove_mines, recordMove_height, recordMove_width]
  have hS2 : ∀ c ∈ insert cell ai.safes, m c = false := by
    intro c hc
    rcases Finset.mem_insert.mp hc with rfl | hc2
    · exact hm
    · exact h1 c hc2
  refine ⟨hS2, h2, ?_, ?_⟩
  · intro s hs
    split at hs
    · rcases List.mem_append.mp hs with hold | hnew
      · exact recordMove_kb_true m ai cell hm h3 s hold
      · rw [List.mem_singleton] at hnew
        subst hnew
        exact obs_sentence_true m ai.height ai.width cell (insert cell ai.safes)
          ai.mines (Finset.mem_insert_self cell ai.safes) hS2 h2
    · exact recordMove_kb_true m ai cell hm h3 s hs
  · intro s hs
    split at hs
    · rcases List.mem_append.mp hs with hold | hnew
      · exact recordMove_kb_clean ai cell h4 s hold
      · rw [List.mem_singleton] at hnew
        subst hnew
        exact obs_sentence_clean ai.height ai.width cell (insert cell ai.safes)
          ai.mines _
    · exact recordMove_kb_clean ai cell h4 s hs

/-- The soundness invariant tying an agent's state to a fixed mine
layout `m`: every marked-safe cell is no mine, every marked mine is one,
every sentence in the knowledge base is true of `m`, mentions no already
resolved cell, and has a non-empty cell set. -/
def InvAI (m : Cell → Bool) (ai : MinesweeperAI) : Prop :=
  (∀ c ∈ ai.safes, m c = false) ∧ (∀ c ∈ ai.mines, m c = true) ∧
  (∀ s ∈ ai.knowledge, SentenceTrue m s) ∧
  (∀ s ∈ ai.knowledge, Clean ai.safes ai.mines s) ∧
  (∀ s ∈ ai.knowledge, ¬s.cells = ∅)

lemma add_knowledge_pres (m : Cell → Bool) (ai : MinesweeperAI) (cell : Cell)
    (fuel : Nat) (hm : m cell = false) (hI : InvAI m ai) :
    InvAI m (ai.add_knowledge cell (trueCount m ai.height ai.width cell) fuel) ∧
    (ai.add_knowledge cell (trueCount m ai.height ai.width cell) fuel).height =
      ai.height ∧
    (ai.add_knowledge cell (trueCount m ai.height ai.width cell) fuel).width =
      ai.width := by
  obtain ⟨hIs, hIm, hIt, hIc, hIn⟩ := hI
  obtain ⟨o1, o2, o3, o4⟩ := observeStep_pres m ai cell hm hIs hIm hIt hIc
  have hps := forwardPass_sound m fuel
    (observeStep ai cell (trueCount m ai.height ai.width cell)).knowledge.length
    (observeStep ai cell (trueCount m ai.height ai.width cell)).knowledge
    ⟨(observeStep ai cell (trueCount m ai.height ai.width cell)).safes,
      (observeStep ai cell (trueCount m ai.height ai.width cell)).mines,
      (observeStep ai cell (trueCount m ai.height ai.width cell)).knowledge⟩
    o1 o2 o3 o4 o3 o4
  have hnon := forwardPass_nonempty m fuel
    (observeStep ai cell (trueCount m ai.height ai.width cell)).knowledge.length
    (observeStep ai cell (trueCount m ai.height ai.width cell)).knowledge
    ⟨(observeStep ai cell (trueCount m ai.height ai.width cell)).safes,
      (observeStep ai cell (trueCount m ai.height ai.width cell)).mines,
      (observeStep ai cell (trueCount m ai.height ai.width cell)).knowledge⟩
    (Nat.le_refl _) o3 o3
    (by
      intro hemp
      intro s hs
      rw [hemp] at hs
      exact absurd hs (List.not_mem_nil s))
  simp only [MinesweeperAI.add_knowledge]
  exact ⟨⟨hps.1, hps.2.1, hps.2.2.1, hps.2.2.2, hnon⟩,
    observeStep_height ai cell _, observeStep_width ai cell _⟩

lemma runGame_loop_inv (m : Cell → Bool) (h w : Int) (fuel : Nat) :
    ∀ (queries : List Cell) (ai : MinesweeperAI),
      ai.height = h → ai.width = w → (∀ q ∈ queries, m q = false) → InvAI m ai →
      InvAI m (queries.foldl
        (fun a q => a.add_knowledge q (trueCount m h w q) fuel) ai) ∧
      (queries.foldl
        (fun a q => a.add_knowledge q (trueCount m h w q) fuel) ai).height = h ∧
      (queries.foldl
        (fun a q => a.add_knowledge q (trueCount m h w q) fuel) ai).width = w := by
  intro queries
  induction queries with
  | nil =>
      intro ai hh hw hq hI
      exact ⟨hI, hh, hw⟩
  | cons q rest ih =>
      intro ai hh hw hq hI
      rw [List.foldl_cons]
      have hstep := add_knowledge_pres m ai q fuel (hq q (List.mem_cons_self _ _)) hI
      rw [hh, hw] at hstep
      exact ih _ hstep.2.1 hstep.2.2
        (fun x hx => hq x (List.mem_cons_of_mem _ hx)) hstep.1

lemma runGame_inv (m : Cell → Bool) (h w : Int) (fuel : Nat) (queries : List Cell)
    (hq : ∀ q ∈ queries, m q = false) :
    InvAI m (runGame fuel m h w queries) := by
  unfold runGame
  refine (runGame_loop_inv m h w fuel queries (MinesweeperAI.init h w) rfl rfl hq ?_).1
  refine ⟨?_, ?_, ?_, ?_, ?_⟩
  · intro c hc
    exact absurd hc (Finset.not_mem_empty c)
  · intro c hc
    exact absurd hc (Finset.not_mem_empty c)
  · intro s hs
    exact absurd hs (List.not_mem_nil s)
  · intro s hs
    exact absurd hs (List.not_mem_nil s)
  · intro s hs
    exact absurd hs (List.not_mem_nil s)

/-- C3: after any sequence of `add_knowledge` calls from a consistent
environment (each queried cell in-bounds and mine-free, each reported
count the true number of mines among the cell's in-bounds neighbours),
the certainty sets are disjoint and no cell of `safes ∪ mines` occurs in
the cell set of any sentence of the knowledge base. -/
theorem claim_C3_invariant (m : Cell → Bool) (h w : Int) (fuel : Nat)
    (queries : List Cell)
    (hq : ∀ q ∈ queries, inBounds h w q ∧ m q = false) :
    (runGame fuel m h w queries).safes ∩ (runGame fuel m h w queries).mines = ∅ ∧
    (∀ s ∈ (runGame fuel m h w queries).knowledge, ∀ c ∈ s.cells,
      c ∉ (runGame fuel m h w queries).safes ∧
      c ∉ (runGame fuel m h w queries).mines) := by
  obtain ⟨i1, i2, i3, i4, i5⟩ :=
    runGame_inv m h w fuel queries (fun q hqq => (hq q hqq).2)
  constructor
  · ext c
    simp only [Finset.mem_inter, Finset.not_mem_empty, iff_false]
    rintro ⟨hcs, hcm⟩
    have hf := i1 c hcs
    have ht := i2 c hcm
    rw [hf] at ht
    exact Bool.noConfusion ht
  · exact i4

/-- Witness for C3: a concrete consistent game on a 2×4 board with one
mine at (1,1) and three queries. -/
theorem claim_C3_witness :
    (runGame 100 (fun c => decide (c = ((1 : Int), (1 : Int)))) 2 4
      [((0 : Int), (0 : Int)), ((1 : Int), (0 : Int)), ((0 : Int), (2 : Int))]).safes ∩
    (runGame 100 (fun c => decide (c = ((1 : Int), (1 : Int)))) 2 4
      [((0 : Int), (0 : Int)), ((1 : Int), (0 : Int)), ((0 : Int), (2 : Int))]).mines =
      ∅ :=
  (claim_C3_invariant (fun c => decide (c = ((1 : Int), (1 : Int)))) 2 4 100
    [((0 : Int), (0 : Int)), ((1 : Int), (0 : Int)), ((0 : Int), (2 : Int))]
    (by decide)).1

/-- C9: every sentence in the knowledge base after any sequence of
`add_knowledge` calls from a consistent environment satisfies
`0 ≤ count ≤ |cells|`. -/
theorem claim_C9_count_bounds (m : Cell → Bool) (h w : Int) (fuel : Nat)
    (queries : List Cell)
    (hq : ∀ q ∈ queries, inBounds h w q ∧ m q = false) :
    ∀ s ∈ (runGame fuel m h w queries).knowledge,
      0 ≤ s.count ∧ s.count ≤ (s.cells.card : Int) := by
  obtain ⟨_, _, i3, _, _⟩ :=
    runGame_inv m h w fuel queries (fun q hqq => (hq q hqq).2)
  intro s hs
  have ht := i3 s hs
  unfold SentenceTrue at ht
  have hle := Finset.card_le_card
    (Finset.filter_subset (fun c => m c = true) s.cells)
  omega

/-- Witness for C9: a sentence of the concrete 2×4 game's knowledge base
with its bounds checked through the theorem. -/
theorem claim_C9_witness :
    (Sentence.mk {((0 : Int), (1 : Int)), ((1 : Int), (1 : Int))} 1) ∈
      (runGame 100 (fun c => decide (c = ((1 : Int), (1 : Int)))) 2 4
        [((0 : Int), (0 : Int)), ((1 : Int), (0 : Int)),
          ((0 : Int), (2 : Int))]).knowledge ∧
    (0 ≤ (Sentence.mk {((0 : Int), (1 : Int)), ((1 : Int), (1 : Int))} 1).count ∧
      (Sentence.mk {((0 : Int), (1 : Int)), ((1 : Int), (1 : Int))} 1).count ≤
        (((Sentence.mk {((0 : Int), (1 : Int)), ((1 : Int), (1 : Int))} 1).cells.card :
          Int))) :=
  ⟨by decide,
    claim_C9_count_bounds (fun c => decide (c = ((1 : Int), (1 : Int)))) 2 4 100
      [((0 : Int), (0 : Int)), ((1 : Int), (0 : Int)), ((0 : Int), (2 : Int))]
      (by decide)
      (Sentence.mk {((0 : Int), (1 : Int)), ((1 : Int), (1 : Int))} 1) (by decide)⟩

/-- C1 (amended): after any sequence of `add_knowledge` calls from a
consistent environment, every sentence remaining in the knowledge base
has a non-empty cell set (sentences whose cell set became empty have
been dropped, and subset-resolution never synthesizes an empty
difference from sentences true of the board).  The fixpoint part of the
claim fails: `add_knowledge` makes a single pass over the snapshot of
the knowledge base taken after the observation sentence is appended, and
sentences synthesized during the pass are not re-examined within the
same call, so a further pass may still produce new marks — see the
counterexample. -/
theorem claim_C1_no_empty_sentences (m : Cell → Bool) (h w : Int) (fuel : Nat)
    (queries : List Cell)
    (hq : ∀ q ∈ queries, inBounds h w q ∧ m q = false) :
    ∀ s ∈ (runGame fuel m h w queries).knowledge, ¬s.cells = ∅ :=
  (runGame_inv m h w fuel queries (fun q hqq => (hq q hqq).2)).2.2.2.2

/-- Witness for C1 (amended): a sentence of the concrete 2×4 game's
knowledge base, shown non-empty through the theorem. -/
theorem claim_C1_witness :
    (Sentence.mk {((0 : Int), (1 : Int)), ((1 : Int), (1 : Int))} 1) ∈
      (runGame 100 (fun c => decide (c = ((1 : Int), (1 : Int)))) 2 4
        [((0 : Int), (0 : Int)), ((1 : Int), (0 : Int)),
          ((0 : Int), (2 : Int))]).knowledge ∧
    ¬(Sentence.mk {((0 : Int), (1 : Int)), ((1 : Int), (1 : Int))} 1).cells = ∅ :=
  ⟨by decide,
    claim_C1_no_empty_sentences (fun c => decide (c = ((1 : Int), (1 : Int)))) 2 4
      100 [((0 : Int), (0 : Int)), ((1 : Int), (0 : Int)), ((0 : Int), (2 : Int))]
      (by decide)
      (Sentence.mk {((0 : Int), (1 : Int)), ((1 : Int), (1 : Int))} 1) (by decide)⟩

/-- Counterexample to C1 as stated: on a 2×4 board with its single mine
at (1,1), after the consistent queries (0,0), (1,0), (0,2) — all
in-bounds non-mine cells with true counts, last conjunct — the returned
knowledge base still contains the sentence {(0,3),(1,2),(1,3)} = 0.
That sentence yields all its cells as known-safe, yet (0,3) is not in
`safes`: one more propagation pass would produce new marks, so the state
after `add_knowledge` is not a propagation fixpoint. -/
theorem claim_C1_counterexample :
    (Sentence.mk {((0 : Int), (3 : Int)), ((1 : Int), (2 : Int)),
        ((1 : Int), (3 : Int))} 0) ∈
      (runGame 100 (fun c => decide (c = ((1 : Int), (1 : Int)))) 2 4
        [((0 : Int), (0 : Int)), ((1 : Int), (0 : Int)),
          ((0 : Int), (2 : Int))]).knowledge ∧
    (Sentence.mk {((0 : Int), (3 : Int)), ((1 : Int), (2 : Int)),
        ((1 : Int), (3 : Int))} 0).known_safes =
      {((0 : Int), (3 : Int)), ((1 : Int), (2 : Int)), ((1 : Int), (3 : Int))} ∧
    ((0 : Int), (3 : Int)) ∉
      (runGame 100 (fun c => decide (c = ((1 : Int), (1 : Int)))) 2 4
        [((0 : Int), (0 : Int)), ((1 : Int), (0 : Int)),
          ((0 : Int), (2 : Int))]).safes ∧
    ([((0 : Int), (0 : Int)), ((1 : Int), (0 : Int)), ((0 : Int), (2 : Int))].all
      (fun q => decide (inBounds 2 4 q) &&
        !(decide (q = ((1 : Int), (1 : Int)))))) = true := by
  decide

end Minesweeper
